import Mathlib

/-
Verification of the pa-types CIGAR module (src/cigar.rs, src/cost.rs) against
its specification.  Sequences are lists of bytes, the CIGAR text format is a
list of characters, machine integers (`I = i32`, `Cost = i32`) are modelled as
`Int` (no claim in scope depends on wrap-around), and every Rust operation
that can panic is modelled as an `Option`/error result with `none` standing
for the panic.
-/

namespace PaTypes

/-- Modelled from the spec: the `Pos` / `I` position primitives live in a
module of this repository that is not among the provided sources.  Per the
spec a Position is a pair of integer coordinates `(ref_pos, query_pos)`
(`I = i32`, modelled as `Int`) with componentwise addition and subtraction. -/
structure Pos where
  x : Int
  y : Int
deriving DecidableEq, Repr

def Pos.add (p q : Pos) : Pos := ⟨p.x + q.x, p.y + q.y⟩

def Pos.sub (p q : Pos) : Pos := ⟨p.x - q.x, p.y - q.y⟩

/-- Scaling of a position by an integer, from `impl Mul<I> for Pos` in cigar.rs. -/
def Pos.scale (p : Pos) (k : Int) : Pos := ⟨p.x * k, p.y * k⟩

instance : Add Pos := ⟨Pos.add⟩

instance : Sub Pos := ⟨Pos.sub⟩

instance : HMul Pos Int Pos := ⟨Pos.scale⟩

inductive CigarOp where
  | Match
  | Sub
  | Del
  | Ins
deriving DecidableEq, Repr

structure CigarElem where
  op : CigarOp
  cnt : Int
deriving DecidableEq, Repr

def CigarElem.new (op : CigarOp) (cnt : Int) : CigarElem := ⟨op, cnt⟩

structure Cigar where
  ops : List CigarElem
deriving DecidableEq, Repr

def CigarOp.to_char : CigarOp → Char
  | .Match => '='
  | .Sub => 'X'
  | .Ins => 'I'
  | .Del => 'D'

/-- Index change for an operation, `(text_pos, query_pos)`. -/
def CigarOp.delta : CigarOp → Pos
  | .Match => ⟨1, 1⟩
  | .Sub => ⟨1, 1⟩
  | .Del => ⟨1, 0⟩
  | .Ins => ⟨0, 1⟩

/-- Index change to operation; the catch-all panic is modelled as `none`. -/
def CigarOp.from_delta (d : Pos) : Option CigarOp :=
  if d = (⟨0, 1⟩ : Pos) then some .Ins
  else if d = (⟨1, 0⟩ : Pos) then some .Del
  else if d = (⟨1, 1⟩ : Pos) then some .Match
  else none

/-- Decoding of an operation byte (`impl From<u8> for CigarOp`); the panic on
an invalid byte is modelled as `none`. -/
def CigarOp.ofByte : Char → Option CigarOp
  | '=' => some .Match
  | 'M' => some .Match
  | 'X' => some .Sub
  | 'I' => some .Ins
  | 'D' => some .Del
  | _ => none

/-- Cost model from cost.rs.  The Rust field `open` is spelled `open_` here
because `open` is a Lean keyword. -/
structure CostModel where
  sub : Int
  open_ : Int
  extend : Int
deriving DecidableEq, Repr

def CostModel.unit : CostModel := ⟨1, 0, 1⟩

def CostModel.ins (cm : CostModel) (len : Int) : Int := cm.open_ + len * cm.extend

def CostModel.del (cm : CostModel) (len : Int) : Int := cm.open_ + len * cm.extend

/-- Score model from cost.rs.  The Rust field `r#match` is spelled `match_`. -/
structure ScoreModel where
  match_ : Int
  sub : Int
  open_ : Int
  extend : Int
  factor : Int
deriving DecidableEq, Repr

/-- `ScoreModel::OFFSET`. -/
def scoreOFFSET : Int := 1

def ScoreModel.from_costs (cm : CostModel) : ScoreModel :=
  let factor : Int := if cm.sub > 2 ∧ cm.extend > 1 then 1 else if cm.sub = 1 then 3 else 2
  ⟨scoreOFFSET * 2,
   -cm.sub * factor + scoreOFFSET * 2,
   -cm.open_ * factor,
   -cm.extend * factor + scoreOFFSET,
   factor⟩

/-- `ScoreModel::global_cost`; the `assert!(s % self.factor == 0)` is modelled
by returning `none` when the division would not be exact. -/
def ScoreModel.global_cost (sm : ScoreModel) (score : Int) (a_len b_len : Nat) : Option Int :=
  let path_len : Int := (a_len : Int) + (b_len : Int)
  let s : Int := -score + path_len * scoreOFFSET
  if s % sm.factor = 0 then some (s / sm.factor) else none

/-- Bounds-checked byte access `seq.get(i as usize)` with an `i32` index: a
negative index wraps to a huge `usize` and is therefore out of bounds. -/
def seqGet (s : List Nat) (i : Int) : Option Nat :=
  if 0 ≤ i then s.get? i.toNat else none

/-- `Cigar::push` restricted to the operation list: merge with the last
element when it has the same op, else append a fresh unit element. -/
def pushOpList : List CigarElem → CigarOp → List CigarElem
  | [], op => [⟨op, 1⟩]
  | [s], op => if s.op = op then [⟨s.op, s.cnt + 1⟩] else [s, ⟨op, 1⟩]
  | x :: y :: xs, op => x :: pushOpList (y :: xs) op

def Cigar.push (c : Cigar) (op : CigarOp) : Cigar := ⟨pushOpList c.ops op⟩

/-- `Cigar::push_elem` restricted to the operation list. -/
def pushElemList : List CigarElem → CigarElem → List CigarElem
  | [], e => [e]
  | [s], e => if s.op = e.op then [⟨s.op, s.cnt + e.cnt⟩] else [s, e]
  | x :: y :: xs, e => x :: pushElemList (y :: xs) e

def Cigar.push_elem (c : Cigar) (e : CigarElem) : Cigar := ⟨pushElemList c.ops e⟩

/-- `Cigar::push_matches` restricted to the operation list. -/
def pushMatchesList : List CigarElem → Int → List CigarElem
  | [], cnt => [⟨.Match, cnt⟩]
  | [s], cnt => if s.op = .Match then [⟨s.op, s.cnt + cnt⟩] else [s, ⟨.Match, cnt⟩]
  | x :: y :: xs, cnt => x :: pushMatchesList (y :: xs) cnt

def Cigar.push_matches (c : Cigar) (cnt : Int) : Cigar := ⟨pushMatchesList c.ops cnt⟩

/-- Grouping of a flat stream of operations into coalesced runs
(`Cigar::from_ops` via `chunk_by`). -/
def chunkOps : List CigarOp → List CigarElem
  | [] => []
  | op :: rest =>
    match chunkOps rest with
    | [] => [⟨op, 1⟩]
    | e :: es => if e.op = op then ⟨op, e.cnt + 1⟩ :: es else ⟨op, 1⟩ :: e :: es

def Cigar.from_ops (ops : List CigarOp) : Cigar := ⟨chunkOps ops⟩

/-- Result type of `Cigar::verify` (`Result<Cost, &str>`). -/
inductive VResult where
  | err : String → VResult
  | ok : Int → VResult
deriving DecidableEq, Repr

/-- Match-run byte loop of `verify`: the loop body compares the bytes at the
(already advanced) position `pos`, `n` times. -/
def matchRunLoop (text pattern : List Nat) (pos : Pos) : Nat → Option Unit
  | 0 => some ()
  | n + 1 =>
    if seqGet text pos.x ≠ seqGet pattern pos.y then none
    else matchRunLoop text pattern pos n

/-- Sub-run byte loop of `verify`, accumulating `cm.sub` per iteration. -/
def subRunLoop (cm : CostModel) (text pattern : List Nat) (pos : Pos) (cost : Int) :
    Nat → Option Int
  | 0 => some cost
  | n + 1 =>
    if seqGet text pos.x = seqGet pattern pos.y then none
    else subRunLoop cm text pattern pos (cost + cm.sub) n

/-- Element loop of `Cigar::verify`.  Note that, as in the source, the
position is advanced by the whole run (`pos += op.delta() * cnt`) before the
per-base Match/Sub checks are made. -/
def verifyGo (cm : CostModel) (text pattern : List Nat) :
    Pos → Int → List CigarElem → VResult
  | pos, cost, [] =>
    if pos ≠ (⟨(text.length : Int), (pattern.length : Int)⟩ : Pos) then
      .err "Wrong alignment length."
    else .ok cost
  | pos, cost, e :: rest =>
    let pos' := pos + e.op.delta * e.cnt
    match e.op with
    | .Match =>
      match matchRunLoop text pattern pos' e.cnt.toNat with
      | none => .err "Expected match but found substitution."
      | some _ => verifyGo cm text pattern pos' cost rest
    | .Sub =>
      match subRunLoop cm text pattern pos' cost e.cnt.toNat with
      | none => .err "Expected substitution but found match."
      | some cost' => verifyGo cm text pattern pos' cost' rest
    | .Ins => verifyGo cm text pattern pos' (cost + cm.open_ + e.cnt * cm.extend) rest
    | .Del => verifyGo cm text pattern pos' (cost + cm.open_ + e.cnt * cm.extend) rest

def Cigar.verify (c : Cigar) (cm : CostModel) (text pattern : List Nat) : VResult :=
  verifyGo cm text pattern ⟨0, 0⟩ 0 c.ops

/-- Per-base loop of the Match arm of `resolve_matches`: index both
sequences (a panic on an out-of-bounds index is `none`), push a `Match` or
`Sub` unit, then advance. -/
def resolveMatchLoop (text pattern : List Nat) :
    List CigarElem → Pos → Nat → Option (List CigarElem × Pos)
  | acc, pos, 0 => some (acc, pos)
  | acc, pos, n + 1 =>
    match seqGet text pos.x, seqGet pattern pos.y with
    | some a, some b =>
      resolveMatchLoop text pattern
        (pushOpList acc (if a = b then .Match else .Sub)) (pos + CigarOp.delta .Match) n
    | _, _ => none

def resolveGo (text pattern : List Nat) :
    List CigarElem → Pos → List CigarElem → Option (List CigarElem)
  | acc, _, [] => some acc
  | acc, pos, e :: rest =>
    match e.op with
    | .Match =>
      match resolveMatchLoop text pattern acc pos e.cnt.toNat with
      | some (acc', pos') => resolveGo text pattern acc' pos' rest
      | none => none
    | _ => resolveGo text pattern (pushElemList acc e) (pos + e.op.delta * e.cnt) rest

/-- `Cigar::resolve_matches`. -/
def Cigar.resolve_matches (elems : List CigarElem) (text pattern : List Nat) : Option Cigar :=
  (resolveGo text pattern [] ⟨0, 0⟩ elems).map Cigar.mk

/-- Deltas of consecutive path points (`tuple_windows`). -/
def pathDeltas (path : List Pos) : List Pos :=
  List.zipWith (fun p q => q - p) path path.tail

/-- Conversion of the step deltas of a path to unit-count elements; a step
whose delta is not recognized by `CigarOp::from_delta` panics (`none`). -/
def mapDeltas : List Pos → Option (List CigarElem)
  | [] => some []
  | d :: ds =>
    match CigarOp.from_delta d with
    | none => none
    | some op => (mapDeltas ds).map (fun es => CigarElem.new op 1 :: es)

/-- `Cigar::from_path`; the panics (empty path via `path[0]`, a first point
different from the origin, an unrecognized delta, an out-of-bounds byte read
during match resolution) are all modelled as `none`. -/
def Cigar.from_path (text pattern : List Nat) (path : List Pos) : Option Cigar :=
  match path.head? with
  | none => none
  | some p0 =>
    if p0 ≠ (⟨0, 0⟩ : Pos) then none
    else
      match mapDeltas (pathDeltas path) with
      | none => none
      | some elems => Cigar.resolve_matches elems text pattern

/-- Match-run loop of `to_path_with_costs`: each entry repeats the running
cost; returns the pushed entries and the final position. -/
def matchCostEntries (cost : Int) : Pos → Nat → List (Pos × Int) × Pos
  | pos, 0 => ([], pos)
  | pos, n + 1 =>
    let pos' := pos + CigarOp.delta .Match
    let r := matchCostEntries cost pos' n
    ((pos', cost) :: r.1, r.2)

/-- Sub-run loop of `to_path_with_costs`: each base adds `cm.sub` to the
running cost; returns the entries, the final position and the final cost. -/
def subCostEntries (cm : CostModel) : Pos → Int → Nat → List (Pos × Int) × Pos × Int
  | pos, cost, 0 => ([], pos, cost)
  | pos, cost, n + 1 =>
    let pos' := pos + CigarOp.delta .Sub
    let cost' := cost + cm.sub
    let r := subCostEntries cm pos' cost' n
    ((pos', cost') :: r.1, r.2)

/-- Gap-run loop of `to_path_with_costs` (`for len in 1..=cnt`): the entry for
loop counter `len` carries `cost + open + len·extend`; the running cost
itself is untouched by the loop. -/
def gapCostEntries (cm : CostModel) (d : Pos) (cost : Int) :
    Pos → Int → Nat → List (Pos × Int) × Pos
  | pos, _, 0 => ([], pos)
  | pos, len, n + 1 =>
    let pos' := pos + d
    let r := gapCostEntries cm d cost pos' (len + 1) n
    ((pos', cost + cm.open_ + len * cm.extend) :: r.1, r.2)

def pathCostsGo (cm : CostModel) : Pos → Int → List CigarElem → List (Pos × Int)
  | _, _, [] => []
  | pos, cost, e :: rest =>
    match e.op with
    | .Match =>
      let r := matchCostEntries cost pos e.cnt.toNat
      r.1 ++ pathCostsGo cm r.2 cost rest
    | .Sub =>
      let r := subCostEntries cm pos cost e.cnt.toNat
      r.1 ++ pathCostsGo cm r.2.1 r.2.2 rest
    | .Ins =>
      let r := gapCostEntries cm (CigarOp.delta .Ins) cost pos 1 e.cnt.toNat
      r.1 ++ pathCostsGo cm r.2 (cost + cm.ins e.cnt) rest
    | .Del =>
      let r := gapCostEntries cm (CigarOp.delta .Del) cost pos 1 e.cnt.toNat
      r.1 ++ pathCostsGo cm r.2 (cost + cm.del e.cnt) rest

def Cigar.to_path_with_costs (c : Cigar) (cm : CostModel) : List (Pos × Int) :=
  (⟨0, 0⟩, 0) :: pathCostsGo cm ⟨0, 0⟩ 0 c.ops

def digitChar : Nat → Char
  | 0 => '0'
  | 1 => '1'
  | 2 => '2'
  | 3 => '3'
  | 4 => '4'
  | 5 => '5'
  | 6 => '6'
  | 7 => '7'
  | 8 => '8'
  | 9 => '9'
  | _ => '*'

/-- Decimal digits of a natural number, most significant first (the rendering
of a nonnegative `i32` by `write!`). -/
def natDigits (n : Nat) : List Char :=
  if _h : n < 10 then [digitChar n]
  else natDigits (n / 10) ++ [digitChar (n % 10)]
termination_by n
decreasing_by exact Nat.div_lt_self (by omega) (by omega)

/-- Decimal rendering of an `i32` value. -/
def intRepr (n : Int) : List Char :=
  if n < 0 then '-' :: natDigits (-n).toNat else natDigits n.toNat

/-- `Cigar::to_string`: each element renders as `<count><op-char>`. -/
def Cigar.to_string (c : Cigar) : List Char :=
  c.ops.foldr (fun e acc => intRepr e.cnt ++ (e.op.to_char :: acc)) []

def isDigitChar (c : Char) : Bool := decide ('0' ≤ c ∧ c ≤ '9')

/-- `split_inclusive(|b| !b.is_ascii_digit())`: split after every non-digit
byte; an empty input yields no chunks, a trailing run of digits forms a final
chunk without a terminator. -/
def splitInclusiveNonDigit : List Char → List (List Char)
  | [] => []
  | c :: cs =>
    if isDigitChar c then
      match splitInclusiveNonDigit cs with
      | [] => [[c]]
      | chunk :: chunks => (c :: chunk) :: chunks
    else [c] :: splitInclusiveNonDigit cs

def digitVal (c : Char) : Nat := c.toNat - '0'.toNat

def parseNatAcc : Nat → List Char → Nat
  | acc, [] => acc
  | acc, c :: cs => parseNatAcc (10 * acc + digitVal c) cs

/-- Parse of a run count (`str::parse::<I>`); the count bytes handed over by
`from_string` are always decimal digits, and a parse failure is `none`. -/
def parseCount (ds : List Char) : Option Int :=
  if ds = [] then none
  else if ds.all isDigitChar then some ((parseNatAcc 0 ds : Nat) : Int) else none

/-- Decoding of one chunk of `from_string`: the final byte is the operation
character, the preceding digit bytes are the count (default 1). -/
def chunkToElem (chunk : List Char) : Option CigarElem :=
  match chunk.getLast?, chunk.dropLast with
  | none, _ => none
  | some opc, ds =>
    let cntOpt : Option Int := if ds = [] then some 1 else parseCount ds
    match cntOpt, CigarOp.ofByte opc with
    | some cnt, some op => some ⟨op, cnt⟩
    | _, _ => none

def fromStringGo : List CigarElem → List (List Char) → Option (List CigarElem)
  | acc, [] => some acc
  | acc, chunk :: rest =>
    match chunkToElem chunk with
    | none => none
    | some e => fromStringGo (pushElemList acc e) rest

/-- `Cigar::from_string`. -/
def Cigar.from_string (s : List Char) : Option Cigar :=
  (fromStringGo [] (splitInclusiveNonDigit s)).map Cigar.mk

/-- Sum over the elements of the operation delta scaled by the count. -/
def sumDeltaElems (l : List CigarElem) : Pos :=
  l.foldr (fun e s => e.op.delta * e.cnt + s) ⟨0, 0⟩

/-- Base-by-base expansion of a run list. -/
def flattenElems (l : List CigarElem) : List CigarOp :=
  l.foldr (fun e acc => List.replicate e.cnt.toNat e.op ++ acc) []

/-- Per-element total cost charged by `verify`: nothing for a Match run, `sub`
per actual Sub base, `open + cnt·extend` per gap run. -/
def elemCost (cm : CostModel) (e : CigarElem) : Int :=
  match e.op with
  | .Match => 0
  | .Sub => (e.cnt.toNat : Int) * cm.sub
  | .Ins => cm.open_ + e.cnt * cm.extend
  | .Del => cm.open_ + e.cnt * cm.extend

def costFormula (cm : CostModel) (l : List CigarElem) : Int :=
  (l.map (elemCost cm)).sum

/-- Run-coalescing invariant: no two adjacent elements share an op. -/
def Coalesced (c : Cigar) : Prop :=
  List.Chain' (fun a b => a.op ≠ b.op) c.ops

/-- Base-by-base in-bounds check for one nominal Match run starting at `pos`. -/
def boundsLoop (text pattern : List Nat) : Pos → Nat → Bool
  | _, 0 => true
  | pos, n + 1 =>
    ((seqGet text pos.x).isSome && (seqGet pattern pos.y).isSome)
      && boundsLoop text pattern (pos + CigarOp.delta .Match) n

/-- Every base of every nominal Match run of the element stream indexes
within both sequences (the hypothesis of the `resolve_matches` claim). -/
def matchBasesInBounds (text pattern : List Nat) : Pos → List CigarElem → Bool
  | _, [] => true
  | pos, e :: rest =>
    match e.op with
    | .Match =>
      boundsLoop text pattern pos e.cnt.toNat
        && matchBasesInBounds text pattern
            (pos + CigarOp.delta .Match * (e.cnt.toNat : Int)) rest
    | _ => matchBasesInBounds text pattern (pos + e.op.delta * e.cnt) rest

/-- Reclassification relation of `resolve_matches` on the flattened base
streams: a base of a nominal Match run becomes Match or Sub; every other
base is unchanged. -/
def reclass (a b : CigarOp) : Prop :=
  if a = CigarOp.Match then b = CigarOp.Match ∨ b = CigarOp.Sub else b = a

instance (a b : CigarOp) : Decidable (reclass a b) := by
  unfold reclass
  infer_instance

/-- Entries contributed by one run in the cost-trace claim, in closed form:
for `k = 1..cnt`, a Match entry carries the running cost unchanged, the k-th
Sub entry carries `cost + k·sub`, and the k-th entry of a gap run carries
`cost + open + k·extend`. -/
def specRunEntries (cm : CostModel) (pos : Pos) (cost : Int) (e : CigarElem) :
    List (Pos × Int) :=
  match e.op with
  | .Match =>
    (List.range' 1 e.cnt.toNat).map fun (k : Nat) => (pos + e.op.delta * (k : Int), cost)
  | .Sub =>
    (List.range' 1 e.cnt.toNat).map fun (k : Nat) =>
      (pos + e.op.delta * (k : Int), cost + (k : Int) * cm.sub)
  | .Ins =>
    (List.range' 1 e.cnt.toNat).map fun (k : Nat) =>
      (pos + e.op.delta * (k : Int), cost + cm.open_ + (k : Int) * cm.extend)
  | .Del =>
    (List.range' 1 e.cnt.toNat).map fun (k : Nat) =>
      (pos + e.op.delta * (k : Int), cost + cm.open_ + (k : Int) * cm.extend)

/-- Amount added to the running total once a whole run has been traversed. -/
def specRunTotal (cm : CostModel) (e : CigarElem) : Int :=
  match e.op with
  | .Match => 0
  | .Sub => e.cnt * cm.sub
  | .Ins => cm.open_ + e.cnt * cm.extend
  | .Del => cm.open_ + e.cnt * cm.extend

def specTraceGo (cm : CostModel) : Pos → Int → List CigarElem → List (Pos × Int)
  | _, _, [] => []
  | pos, cost, e :: rest =>
    specRunEntries cm pos cost e
      ++ specTraceGo cm (pos + e.op.delta * e.cnt) (cost + specRunTotal cm e) rest

/-- Closed form of the cost trace, written from the claim. -/
def specTracePath (cm : CostModel) (c : Cigar) : List (Pos × Int) :=
  (⟨0, 0⟩, 0) :: specTraceGo cm ⟨0, 0⟩ 0 c.ops

theorem Pos.add_def (p q : Pos) : p + q = ⟨p.x + q.x, p.y + q.y⟩ := rfl

theorem Pos.sub_def (p q : Pos) : p - q = ⟨p.x - q.x, p.y - q.y⟩ := rfl

theorem Pos.scale_def (p : Pos) (k : Int) : p * k = ⟨p.x * k, p.y * k⟩ := rfl

theorem Pos.add_zero_right (p : Pos) : p + (⟨0, 0⟩ : Pos) = p := by
  cases p
  simp [Pos.add_def]

theorem Pos.add_assoc (p q r : Pos) : p + q + r = p + (q + r) := by
  cases p
  cases q
  cases r
  simp [Pos.add_def]
  constructor <;> ring

theorem sumDeltaElems_nil : sumDeltaElems [] = (⟨0, 0⟩ : Pos) := rfl

theorem sumDeltaElems_cons (e : CigarElem) (l : List CigarElem) :
    sumDeltaElems (e :: l) = e.op.delta * e.cnt + sumDeltaElems l := rfl

theorem costFormula_nil (cm : CostModel) : costFormula cm [] = 0 := rfl

theorem costFormula_cons (cm : CostModel) (e : CigarElem) (l : List CigarElem) :
    costFormula cm (e :: l) = elemCost cm e + costFormula cm l := by
  simp [costFormula]

/-- C1: refutation by evaluation of the claimed per-base check discipline of
`verify`.  The code advances the position by the whole run before comparing
bytes, so a valid single-base substitution (`"1X"` on `"a"` versus `"b"`,
whose bytes differ at the only base) is rejected with the Sub-equality error,
and a Match run with a mismatch at its second base (`"2="` on `"ab"` versus
`"ac"`) is accepted with cost 0 instead of failing with the match-mismatch
error. -/
theorem c1_verify_positioning_bug :
    Cigar.verify ⟨[⟨CigarOp.Sub, 1⟩]⟩ CostModel.unit [97] [98]
        = VResult.err "Expected substitution but found match."
    ∧ Cigar.verify ⟨[⟨CigarOp.Match, 2⟩]⟩ CostModel.unit [97, 98] [97, 99] = VResult.ok 0 := by
  constructor <;> rfl

/-- C2 counterexample: a Cigar whose summed delta differs from the target can
fail with the Sub-equality error rather than the length-mismatch error:
`"2X"` against `"a"`/`"a"` has summed delta `(2,2) ≠ (1,1)` yet `verify`
reports the substitution-equality failure. -/
theorem c2_length_mismatch_counterexample :
    sumDeltaElems [⟨CigarOp.Sub, 2⟩] ≠ (⟨1, 1⟩ : Pos)
    ∧ Cigar.verify ⟨[⟨CigarOp.Sub, 2⟩]⟩ CostModel.unit [97] [97]
        = VResult.err "Expected substitution but found match."
    ∧ Cigar.verify ⟨[⟨CigarOp.Sub, 2⟩]⟩ CostModel.unit [97] [97]
        ≠ VResult.err "Wrong alignment length." := by
  refine ⟨by decide, rfl, by decide⟩

theorem subRunLoop_ok (cm : CostModel) (t p : List Nat) (pos : Pos) :
    ∀ (n : Nat) (cost cost' : Int), subRunLoop cm t p pos cost n = some cost' →
      cost' = cost + (n : Int) * cm.sub := by
  intro n
  induction n with
  | zero =>
    intro cost cost' h
    simp [subRunLoop] at h
    simp [← h]
  | succ k ih =>
    intro cost cost' h
    simp only [subRunLoop] at h
    split at h
    · exact absurd h (by simp)
    · have := ih (cost + cm.sub) cost' h
      push_cast [this]
      ring

theorem verifyGo_ok (cm : CostModel) (t p : List Nat) :
    ∀ (elems : List CigarElem) (pos : Pos) (cost r : Int),
      verifyGo cm t p pos cost elems = VResult.ok r →
        r = cost + costFormula cm elems
        ∧ pos + sumDeltaElems elems = (⟨(t.length : Int), (p.length : Int)⟩ : Pos) := by
  intro elems
  induction elems with
  | nil =>
    intro pos cost r h
    simp only [verifyGo] at h
    split at h
    · exact absurd h (by simp)
    · rename_i hpos
      simp only [VResult.ok.injEq] at h
      refine ⟨by simp [← h, costFormula_nil], ?_⟩
      rw [sumDeltaElems_nil, Pos.add_zero_right]
      simpa using hpos
  | cons e rest ih =>
    intro pos cost r h
    obtain ⟨op, cnt⟩ := e
    cases op <;> simp only [verifyGo] at h
    · -- Match
      split at h
      · exact absurd h (by simp)
      · obtain ⟨h1, h2⟩ := ih _ _ _ h
        refine ⟨by simp [h1, costFormula_cons, elemCost], ?_⟩
        rw [sumDeltaElems_cons, ← Pos.add_assoc]
        exact h2
    · -- Sub
      split at h
      · exact absurd h (by simp)
      · rename_i cost' hloop
        obtain ⟨h1, h2⟩ := ih _ _ _ h
        have hc := subRunLoop_ok cm t p _ _ _ _ hloop
        refine ⟨?_, ?_⟩
        · rw [h1, hc]
          simp [costFormula_cons, elemCost]
          ring
        · rw [sumDeltaElems_cons, ← Pos.add_assoc]
          exact h2
    · -- Del
      obtain ⟨h1, h2⟩ := ih _ _ _ h
      refine ⟨?_, ?_⟩
      · rw [h1]
        simp [costFormula_cons, elemCost]
        ring
      · rw [sumDeltaElems_cons, ← Pos.add_assoc]
        exact h2
    · -- Ins
      obtain ⟨h1, h2⟩ := ih _ _ _ h
      refine ⟨?_, ?_⟩
      · rw [h1]
        simp [costFormula_cons, elemCost]
        ring
      · rw [sumDeltaElems_cons, ← Pos.add_assoc]
        exact h2

theorem verifyGo_indel (cm : CostModel) (t p : List Nat) :
    ∀ (elems : List CigarElem) (pos : Pos) (cost : Int),
      (∀ e ∈ elems, e.op = CigarOp.Ins ∨ e.op = CigarOp.Del) →
        verifyGo cm t p pos cost elems =
          if pos + sumDeltaElems elems ≠ (⟨(t.length : Int), (p.length : Int)⟩ : Pos) then
            VResult.err "Wrong alignment length."
          else VResult.ok (cost + costFormula cm elems) := by
  intro elems
  induction elems with
  | nil =>
    intro pos cost _
    simp only [verifyGo, sumDeltaElems_nil, Pos.add_zero_right, costFormula_nil, add_zero]
  | cons e rest ih =>
    intro pos cost hops
    have he := hops e (by simp)
    have hrest : ∀ x ∈ rest, x.op = CigarOp.Ins ∨ x.op = CigarOp.Del := by
      intro x hx
      exact hops x (by simp [hx])
    obtain ⟨op, cnt⟩ := e
    rcases he with he | he <;> simp only at he <;> subst he <;>
      simp only [verifyGo] <;>
      rw [ih _ _ hrest] <;>
      rw [sumDeltaElems_cons, ← Pos.add_assoc] <;>
      congr 1 <;>
      simp [costFormula_cons, elemCost] <;>
      ring

/-- C2 (amended): `verify` never panics, and whenever the summed delta of all
elements differs from `(len(reference), len(query))` it returns some failure
— specifically the length-mismatch failure when the Cigar contains only Ins
and Del runs, though a Match/Sub content failure can preempt it in general
(see `c2_length_mismatch_counterexample`).  On success it returns the total
accumulated cost: `sub` per Sub base, and `open + cnt·extend` per Ins or Del
run, so in particular the summed delta then equals the target. -/
theorem c2_verify_length_and_cost (c : Cigar) (cm : CostModel) (text pattern : List Nat) :
    (sumDeltaElems c.ops ≠ (⟨(text.length : Int), (pattern.length : Int)⟩ : Pos) →
      ∃ e, c.verify cm text pattern = VResult.err e)
    ∧ ((∀ e ∈ c.ops, e.op = CigarOp.Ins ∨ e.op = CigarOp.Del) →
        sumDeltaElems c.ops ≠ (⟨(text.length : Int), (pattern.length : Int)⟩ : Pos) →
          c.verify cm text pattern = VResult.err "Wrong alignment length.")
    ∧ (∀ r, c.verify cm text pattern = VResult.ok r →
        r = costFormula cm c.ops
        ∧ sumDeltaElems c.ops = (⟨(text.length : Int), (pattern.length : Int)⟩ : Pos)) := by
  refine ⟨?_, ?_, ?_⟩
  · intro hne
    rcases hv : c.verify cm text pattern with e | r
    · exact ⟨e, rfl⟩
    · exfalso
      obtain ⟨-, h2⟩ := verifyGo_ok cm text pattern c.ops ⟨0, 0⟩ 0 r hv
      apply hne
      have : (⟨0, 0⟩ : Pos) + sumDeltaElems c.ops = sumDeltaElems c.ops := by
        cases sumDeltaElems c.ops
        simp [Pos.add_def]
      rw [← this]
      exact h2
  · intro hops hne
    unfold Cigar.verify
    rw [verifyGo_indel cm text pattern c.ops ⟨0, 0⟩ 0 hops]
    have hz : (⟨0, 0⟩ : Pos) + sumDeltaElems c.ops = sumDeltaElems c.ops := by
      cases sumDeltaElems c.ops
      simp [Pos.add_def]
    rw [hz, if_pos hne]
  · intro r hv
    obtain ⟨h1, h2⟩ := verifyGo_ok cm text pattern c.ops ⟨0, 0⟩ 0 r hv
    have hz : (⟨0, 0⟩ : Pos) + sumDeltaElems c.ops = sumDeltaElems c.ops := by
      cases sumDeltaElems c.ops
      simp [Pos.add_def]
    rw [hz] at h2
    exact ⟨by simpa using h1, h2⟩

/-- C2 witness: the amended theorem applied to the Del-only Cigar `"2D"`
against reference `"a"` and an empty query, whose summed delta `(2,0)`
misses the target `(1,0)`, and to a valid insertion-only alignment. -/
theorem c2_verify_length_and_cost_witness :
    (sumDeltaElems [⟨CigarOp.Del, 2⟩] ≠ (⟨1, 0⟩ : Pos)
      ∧ Cigar.verify ⟨[⟨CigarOp.Del, 2⟩]⟩ CostModel.unit [97] []
          = VResult.err "Wrong alignment length.")
    ∧ (7 : Int) = costFormula ⟨1, 3, 2⟩ [⟨CigarOp.Ins, 2⟩]
    ∧ sumDeltaElems [⟨CigarOp.Ins, 2⟩] = (⟨0, 2⟩ : Pos) := by
  refine ⟨⟨by decide, ?_⟩, ?_, ?_⟩
  · exact (c2_verify_length_and_cost ⟨[⟨CigarOp.Del, 2⟩]⟩ CostModel.unit [97] []).2.1
      (by decide) (by decide)
  · exact ((c2_verify_length_and_cost ⟨[⟨CigarOp.Ins, 2⟩]⟩ ⟨1, 3, 2⟩ [] [97, 98]).2.2 7 rfl).1
  · exact ((c2_verify_length_and_cost ⟨[⟨CigarOp.Ins, 2⟩]⟩ ⟨1, 3, 2⟩ [] [97, 98]).2.2 7 rfl).2

/-- C4: `from_string` splits at each non-digit byte, decodes `M` and `=` to
Match, `X` to Sub, `I` to Ins, `D` to Del, defaults an absent count to 1, and
merges adjacent same-op runs by accumulating counts; in particular
`"=XIDDD"` parses to `[(Match,1),(Sub,1),(Ins,1),(Del,3)]` and `"24="`
parses to the single element `(Match,24)`. -/
theorem c4_from_string_grammar :
    Cigar.from_string "=XIDDD".toList
        = some ⟨[⟨CigarOp.Match, 1⟩, ⟨CigarOp.Sub, 1⟩, ⟨CigarOp.Ins, 1⟩, ⟨CigarOp.Del, 3⟩]⟩
    ∧ Cigar.from_string "24=".toList = some ⟨[⟨CigarOp.Match, 24⟩]⟩
    ∧ Cigar.from_string "3M".toList = some ⟨[⟨CigarOp.Match, 3⟩]⟩
    ∧ Cigar.from_string "D".toList = some ⟨[⟨CigarOp.Del, 1⟩]⟩
    ∧ Cigar.from_string "1=2=".toList = some ⟨[⟨CigarOp.Match, 3⟩]⟩
    ∧ CigarOp.ofByte 'M' = some CigarOp.Match
    ∧ CigarOp.ofByte '=' = some CigarOp.Match
    ∧ CigarOp.ofByte 'X' = some CigarOp.Sub
    ∧ CigarOp.ofByte 'I' = some CigarOp.Ins
    ∧ CigarOp.ofByte 'D' = some CigarOp.Del := by
  refine ⟨rfl, rfl, rfl, rfl, rfl, rfl, rfl, rfl, rfl, rfl⟩

theorem from_costs_fields (cm : CostModel) :
    ∃ f : Int, ScoreModel.from_costs cm
        = ⟨scoreOFFSET * 2, -cm.sub * f + scoreOFFSET * 2, -cm.open_ * f,
           -cm.extend * f + scoreOFFSET, f⟩
      ∧ 0 < f := by
  dsimp only [ScoreModel.from_costs]
  refine ⟨_, rfl, ?_⟩
  split
  · norm_num
  · split <;> norm_num

theorem global_cost_exact (sm : ScoreModel) (score : Int) (a b : Nat) (C : Int)
    (hf : sm.factor ≠ 0) (h : -score + ((a : Int) + (b : Int)) * scoreOFFSET = sm.factor * C) :
    sm.global_cost score a b = some C := by
  unfold ScoreModel.global_cost
  dsimp only
  rw [h, Int.mul_emod_right, if_pos rfl, Int.mul_ediv_cancel_left _ hf]

/-- C7: for every cost model and alignment shape (`m` Match bases, `x` Sub
bases, `g` gap runs totalling `b` gap bases) over sequences whose lengths sum
to `2·(m+x)+b`, the score computed from the derived ScoreModel divides evenly
in `global_cost` and recovers exactly the cost `x·sub + g·open + b·extend`. -/
theorem c7_score_cost_roundtrip (cm : CostModel) (m x g b a_len b_len : Nat)
    (hlen : a_len + b_len = 2 * (m + x) + b) :
    (ScoreModel.from_costs cm).global_cost
        ((m : Int) * (ScoreModel.from_costs cm).match_
          + (x : Int) * (ScoreModel.from_costs cm).sub
          + (g : Int) * (ScoreModel.from_costs cm).open_
          + (b : Int) * (ScoreModel.from_costs cm).extend) a_len b_len
      = some ((x : Int) * cm.sub + (g : Int) * cm.open_ + (b : Int) * cm.extend) := by
  obtain ⟨f, hsm, hf⟩ := from_costs_fields cm
  rw [hsm]
  apply global_cost_exact
  · exact ne_of_gt hf
  · have hcast : ((a_len : Int) + (b_len : Int)) = 2 * ((m : Int) + (x : Int)) + (b : Int) := by
      have := congrArg (fun n : Nat => (n : Int)) hlen
      push_cast at this
      linarith
    dsimp only [scoreOFFSET]
    rw [hcast]
    ring

/-- C7 witness: the round-trip theorem applied to the unit cost model and the
alignment with 2 matches and 1 substitution of two length-3 sequences, whose
recovered cost is 1. -/
theorem c7_score_cost_roundtrip_witness :
    3 + 3 = 2 * (2 + 1) + 0
    ∧ (ScoreModel.from_costs ⟨1, 0, 1⟩).global_cost
        (((2 : Nat) : Int) * (ScoreModel.from_costs ⟨1, 0, 1⟩).match_
          + ((1 : Nat) : Int) * (ScoreModel.from_costs ⟨1, 0, 1⟩).sub
          + ((0 : Nat) : Int) * (ScoreModel.from_costs ⟨1, 0, 1⟩).open_
          + ((0 : Nat) : Int) * (ScoreModel.from_costs ⟨1, 0, 1⟩).extend) 3 3
      = some (((1 : Nat) : Int) * (1 : Int) + ((0 : Nat) : Int) * (0 : Int)
          + ((0 : Nat) : Int) * (1 : Int)) :=
  ⟨by decide, c7_score_cost_roundtrip ⟨1, 0, 1⟩ 2 1 0 0 3 3 (by decide)⟩

theorem pushOpList_eq (l : List CigarElem) (op : CigarOp) :
    pushOpList l op = pushElemList l ⟨op, 1⟩ := by
  induction l with
  | nil => rfl
  | cons x xs ih =>
    cases xs with
    | nil => rfl
    | cons y ys => simp [pushOpList, pushElemList, ih]

theorem pushMatchesList_eq (l : List CigarElem) (cnt : Int) :
    pushMatchesList l cnt = pushElemList l ⟨CigarOp.Match, cnt⟩ := by
  induction l with
  | nil => rfl
  | cons x xs ih =>
    cases xs with
    | nil => rfl
    | cons y ys => simp [pushMatchesList, pushElemList, ih]

theorem pushElemList_cons_head (x : CigarElem) (xs : List CigarElem) (e : CigarElem) :
    ∃ cnt rest, pushElemList (x :: xs) e = CigarElem.mk x.op cnt :: rest := by
  cases xs with
  | nil =>
    by_cases h : x.op = e.op
    · exact ⟨x.cnt + e.cnt, [], by simp [pushElemList, h]⟩
    · exact ⟨x.cnt, [e], by simp [pushElemList, h]⟩
  | cons y ys => exact ⟨x.cnt, pushElemList (y :: ys) e, by simp [pushElemList]⟩

theorem chainNe_pushElemList (l : List CigarElem) (e : CigarElem)
    (h : List.Chain' (fun a b => a.op ≠ b.op) l) :
    List.Chain' (fun a b => a.op ≠ b.op) (pushElemList l e) := by
  induction l with
  | nil => simp [pushElemList]
  | cons x xs ih =>
    cases xs with
    | nil =>
      simp only [pushElemList]
      split
      · exact List.chain'_singleton _
      · exact List.chain'_pair.mpr (by assumption)
    | cons y ys =>
      obtain ⟨hxy, hrest⟩ := List.chain'_cons.mp h
      have ih' := ih hrest
      show List.Chain' _ (x :: pushElemList (y :: ys) e)
      obtain ⟨cnt, rest, heq⟩ := pushElemList_cons_head y ys e
      rw [heq] at ih' ⊢
      exact List.chain'_cons.mpr ⟨hxy, ih'⟩

theorem flattenElems_nil : flattenElems [] = [] := rfl

theorem flattenElems_cons (e : CigarElem) (l : List CigarElem) :
    flattenElems (e :: l) = List.replicate e.cnt.toNat e.op ++ flattenElems l := rfl

theorem chunkOps_spec (l : List CigarOp) :
    List.Chain' (fun a b => a.op ≠ b.op) (chunkOps l)
    ∧ (∀ e ∈ chunkOps l, 1 ≤ e.cnt)
    ∧ flattenElems (chunkOps l) = l := by
  induction l with
  | nil => exact ⟨List.chain'_nil, by simp [chunkOps], rfl⟩
  | cons op rest ih =>
    obtain ⟨ihch, ihcnt, ihfl⟩ := ih
    cases hch : chunkOps rest with
    | nil =>
      rw [hch] at ihfl
      rw [flattenElems_nil] at ihfl
      simp only [chunkOps, hch]
      refine ⟨List.chain'_singleton _, by simp, ?_⟩
      rw [flattenElems_cons, flattenElems_nil, ← ihfl]
      rfl
    | cons e es =>
      rw [hch] at ihch ihcnt ihfl
      simp only [chunkOps, hch]
      split
      · rename_i hop
        have hcnt1 : 1 ≤ e.cnt := ihcnt e (by simp)
        refine ⟨?_, ?_, ?_⟩
        · rw [List.chain'_cons'] at ihch ⊢
          exact ⟨fun y hy => by rw [← hop]; exact ihch.1 y hy, ihch.2⟩
        · intro el hel
          rcases List.mem_cons.mp hel with h | h
          · rw [h]
            simp only
            omega
          · exact ihcnt el (by simp [h])
        · rw [flattenElems_cons]
          simp only at *
          have htn : (e.cnt + 1).toNat = e.cnt.toNat + 1 := by omega
          rw [htn, List.replicate_succ, ← hop]
          rw [flattenElems_cons] at ihfl
          simp [ihfl]
      · rename_i hop
        refine ⟨?_, ?_, ?_⟩
        · exact List.chain'_cons.mpr ⟨fun h => hop h.symm, ihch⟩
        · intro el hel
          rcases List.mem_cons.mp hel with h | h
          · rw [h]
          · exact ihcnt el h
        · rw [flattenElems_cons]
          simp only [Int.toNat_one, List.replicate_one]
          rw [ihfl]
          rfl

/-- C8: the run-coalescing invariant (no two adjacent elements share an op)
is preserved by `push`, `push_elem` and `push_matches`, and `from_ops`
produces a coalesced Cigar that merges only consecutive equal ops without
reordering (its base-by-base flattening is the input stream itself). -/
theorem c8_coalescing_invariant (c : Cigar) (op : CigarOp) (e : CigarElem) (n : Int)
    (ops : List CigarOp) :
    (Coalesced c → Coalesced (c.push op))
    ∧ (Coalesced c → Coalesced (c.push_elem e))
    ∧ (Coalesced c → Coalesced (c.push_matches n))
    ∧ Coalesced (Cigar.from_ops ops)
    ∧ flattenElems (Cigar.from_ops ops).ops = ops := by
  refine ⟨?_, ?_, ?_, ?_, ?_⟩
  · intro h
    show List.Chain' _ (pushOpList c.ops op)
    rw [pushOpList_eq]
    exact chainNe_pushElemList _ _ h
  · intro h
    exact chainNe_pushElemList _ _ h
  · intro h
    show List.Chain' _ (pushMatchesList c.ops n)
    rw [pushMatchesList_eq]
    exact chainNe_pushElemList _ _ h
  · exact (chunkOps_spec ops).1
  · exact (chunkOps_spec ops).2.2

/-- C8 witness: the invariant-preservation theorem applied to the coalesced
one-element Cigar `[(Match,2)]` with a pushed Del op, a pushed `(Sub,3)`
element, a pushed Match run of 4, and the op stream `[M,M,D]`. -/
theorem c8_coalescing_invariant_witness :
    Coalesced (Cigar.push ⟨[⟨CigarOp.Match, 2⟩]⟩ CigarOp.Del)
    ∧ Coalesced (Cigar.push_elem ⟨[⟨CigarOp.Match, 2⟩]⟩ ⟨CigarOp.Sub, 3⟩)
    ∧ Coalesced (Cigar.push_matches ⟨[⟨CigarOp.Match, 2⟩]⟩ 4)
    ∧ Coalesced (Cigar.from_ops [CigarOp.Match, CigarOp.Match, CigarOp.Del])
    ∧ flattenElems (Cigar.from_ops [CigarOp.Match, CigarOp.Match, CigarOp.Del]).ops
        = [CigarOp.Match, CigarOp.Match, CigarOp.Del] := by
  have hco : Coalesced ⟨[⟨CigarOp.Match, 2⟩]⟩ := List.chain'_singleton _
  have h := c8_coalescing_invariant ⟨[⟨CigarOp.Match, 2⟩]⟩ CigarOp.Del ⟨CigarOp.Sub, 3⟩ 4
    [CigarOp.Match, CigarOp.Match, CigarOp.Del]
  exact ⟨h.1 hco, h.2.1 hco, h.2.2.1 hco, h.2.2.2.1, h.2.2.2.2⟩

theorem mapDeltas_none {ds : List Pos} {d : Pos} (hmem : d ∈ ds)
    (hd : CigarOp.from_delta d = none) : mapDeltas ds = none := by
  induction ds with
  | nil => cases hmem
  | cons a as ih =>
    rcases List.mem_cons.mp hmem with h | h
    · subst h
      simp [mapDeltas, hd]
    · simp only [mapDeltas]
      cases hfa : CigarOp.from_delta a
      · rfl
      · rw [ih h]
        rfl

theorem mapDeltas_some (ds : List Pos) (h : ∀ d ∈ ds, (CigarOp.from_delta d).isSome) :
    ∃ elems, mapDeltas ds = some elems
      ∧ List.Forall₂ (fun d e => CigarOp.from_delta d = some e.op) ds elems
      ∧ ∀ e ∈ elems, e.cnt = 1 := by
  induction ds with
  | nil => exact ⟨[], rfl, List.Forall₂.nil, by simp⟩
  | cons a as ih =>
    obtain ⟨op, hop⟩ := Option.isSome_iff_exists.mp (h a (by simp))
    obtain ⟨elems, he, hf, hc⟩ := ih (fun d hd => h d (by simp [hd]))
    refine ⟨CigarElem.new op 1 :: elems, by simp [mapDeltas, hop, he], ?_, ?_⟩
    · exact List.Forall₂.cons (by simp [hop, CigarElem.new]) hf
    · intro e he'
      rcases List.mem_cons.mp he' with h' | h'
      · rw [h']
        rfl
      · exact hc e h'

/-- C6: `from_path` fails fatally (modelled as `none`) whenever the first
path element is not the origin, and whenever some consecutive pair of path
points has a delta that is not one of `(1,1)`, `(1,0)`, `(0,1)`; otherwise
each consecutive pair yields one unit-count element whose op is determined by
its delta, and these elements are handed to `resolve_matches`. -/
theorem c6_from_path_preconditions (text pattern : List Nat) (path : List Pos) :
    (∀ p0, path.head? = some p0 → p0 ≠ (⟨0, 0⟩ : Pos) →
      Cigar.from_path text pattern path = none)
    ∧ (∀ d ∈ pathDeltas path, CigarOp.from_delta d = none →
        Cigar.from_path text pattern path = none)
    ∧ (path.head? = some (⟨0, 0⟩ : Pos) →
        (∀ d ∈ pathDeltas path, (CigarOp.from_delta d).isSome) →
          ∃ elems, mapDeltas (pathDeltas path) = some elems
            ∧ Cigar.from_path text pattern path = Cigar.resolve_matches elems text pattern
            ∧ (∀ e ∈ elems, e.cnt = 1)
            ∧ List.Forall₂ (fun d e => CigarOp.from_delta d = some e.op)
                (pathDeltas path) elems) := by
  refine ⟨?_, ?_, ?_⟩
  · intro p0 hhead hne
    simp [Cigar.from_path, hhead, hne]
  · intro d hmem hd
    cases hhead : path.head? with
    | none => simp [Cigar.from_path, hhead]
    | some p0 =>
      by_cases hp : p0 = (⟨0, 0⟩ : Pos)
      · subst hp
        simp [Cigar.from_path, hhead, mapDeltas_none hmem hd]
      · simp [Cigar.from_path, hhead, hp]
  · intro hhead hall
    obtain ⟨elems, he, hf, hc⟩ := mapDeltas_some (pathDeltas path) hall
    exact ⟨elems, he, by simp [Cigar.from_path, hhead, he], hc, hf⟩

/-- C6 witness: the preconditions theorem applied to a path not starting at
the origin, a path with the unrecognized delta `(2,2)`, and the valid
one-step path `[(0,0),(1,1)]` over two copies of `"a"`. -/
theorem c6_from_path_preconditions_witness :
    Cigar.from_path [] [] [⟨1, 0⟩] = none
    ∧ Cigar.from_path [] [] [⟨0, 0⟩, ⟨2, 2⟩] = none
    ∧ Cigar.from_path [97] [97] [⟨0, 0⟩, ⟨1, 1⟩]
        = Cigar.resolve_matches [CigarElem.new CigarOp.Match 1] [97] [97] := by
  refine ⟨(c6_from_path_preconditions [] [] [⟨1, 0⟩]).1 ⟨1, 0⟩ rfl (by decide),
    (c6_from_path_preconditions [] [] [⟨0, 0⟩, ⟨2, 2⟩]).2.1 ⟨2, 2⟩ (by decide) (by decide), ?_⟩
  obtain ⟨elems, he, heq, -, -⟩ :=
    (c6_from_path_preconditions [97] [97] [⟨0, 0⟩, ⟨1, 1⟩]).2.2 rfl (by decide)
  have h2 : mapDeltas (pathDeltas [(⟨0, 0⟩ : Pos), ⟨1, 1⟩])
      = some [CigarElem.new CigarOp.Match 1] := rfl
  rw [he] at h2
  rw [Option.some.inj h2] at heq
  exact heq

/-- C9 counterexample: the textual parser does not fail on empty input; it
returns an (empty) Cigar value, because splitting an empty byte slice yields
no chunks at all, so the fatal path is never reached. -/
theorem c9_empty_input_counterexample :
    Cigar.from_string [] ≠ none := by
  decide

/-- C9 (amended): `from_string` on the empty string returns the empty Cigar
normally; the parser's fatal failures arise only from an invalid operation
byte (or an unparsable count), as with the lone byte `'?'`. -/
theorem c9_empty_input_amended :
    Cigar.from_string [] = some ⟨[]⟩ ∧ Cigar.from_string ['?'] = none := by
  constructor <;> rfl

theorem Pos.zero_add_left (p : Pos) : (⟨0, 0⟩ : Pos) + p = p := by
  cases p
  simp [Pos.add_def]

theorem Pos.add_right_comm (p q r : Pos) : p + q + r = p + r + q := by
  cases p
  cases q
  cases r
  simp [Pos.add_def]
  constructor <;> ring

theorem Pos.scale_zero (d : Pos) : d * (0 : Int) = (⟨0, 0⟩ : Pos) := by
  cases d
  simp [Pos.scale_def]

theorem Pos.step_scale (pos d : Pos) (n : Int) : pos + d + d * n = pos + d * (n + 1) := by
  cases pos
  cases d
  simp [Pos.add_def, Pos.scale_def]
  constructor <;> ring

theorem Pos.scale_add_split (d : Pos) (a b : Int) (z : Pos) :
    d * (a + b) + z = d * a + z + d * b := by
  cases d
  cases z
  simp [Pos.add_def, Pos.scale_def]
  constructor <;> ring

theorem Pos.scale_one_add (d : Pos) (n : Int) : d * (1 : Int) + d * n = d * (n + 1) := by
  cases d
  simp [Pos.add_def, Pos.scale_def]
  constructor <;> ring

theorem sumDeltaElems_pushElemList (l : List CigarElem) (e : CigarElem) :
    sumDeltaElems (pushElemList l e) = sumDeltaElems l + e.op.delta * e.cnt := by
  induction l with
  | nil =>
    show sumDeltaElems [e] = _
    rw [sumDeltaElems_cons, sumDeltaElems_nil, Pos.add_zero_right, Pos.zero_add_left]
  | cons x xs ih =>
    cases xs with
    | nil =>
      simp only [pushElemList]
      split
      · rename_i hop
        rw [sumDeltaElems_cons, sumDeltaElems_cons, sumDeltaElems_nil]
        simp only
        rw [← hop, Pos.scale_add_split]
      · simp only [sumDeltaElems_cons, sumDeltaElems_nil, Pos.add_zero_right]
    | cons y ys =>
      show sumDeltaElems (x :: pushElemList (y :: ys) e) = _
      rw [sumDeltaElems_cons, ih]
      simp only [sumDeltaElems_cons]
      simp [Pos.add_assoc]

theorem counts_pushElemList (l : List CigarElem) (e : CigarElem)
    (hl : ∀ s ∈ l, 0 ≤ s.cnt) (he : 0 ≤ e.cnt) :
    ∀ s ∈ pushElemList l e, 0 ≤ s.cnt := by
  induction l with
  | nil =>
    intro s hs
    rw [show pushElemList [] e = [e] from rfl] at hs
    simp at hs
    exact hs ▸ he
  | cons x xs ih =>
    cases xs with
    | nil =>
      intro s hs
      simp only [pushElemList] at hs
      split at hs
      · simp at hs
        subst hs
        have := hl x (by simp)
        simp only
        omega
      · rcases List.mem_cons.mp hs with h | h
        · exact h ▸ hl x (by simp)
        · simp at h
          exact h ▸ he
    | cons y ys =>
      intro s hs
      rw [show pushElemList (x :: y :: ys) e = x :: pushElemList (y :: ys) e from rfl] at hs
      rcases List.mem_cons.mp hs with h | h
      · exact h ▸ hl x (by simp)
      · exact ih (fun s' hs' => hl s' (by simp [hs'])) s h

theorem flatten_pushElemList (l : List CigarElem) (e : CigarElem)
    (hl : ∀ s ∈ l, 0 ≤ s.cnt) (he : 0 ≤ e.cnt) :
    flattenElems (pushElemList l e) = flattenElems l ++ List.replicate e.cnt.toNat e.op := by
  induction l with
  | nil =>
    show flattenElems [e] = _
    rw [flattenElems_cons, flattenElems_nil, List.append_nil, List.nil_append]
  | cons x xs ih =>
    cases xs with
    | nil =>
      have hx := hl x (by simp)
      simp only [pushElemList]
      split
      · rename_i hop
        rw [flattenElems_cons, flattenElems_cons, flattenElems_nil]
        simp only
        have htn : (x.cnt + e.cnt).toNat = x.cnt.toNat + e.cnt.toNat := by omega
        rw [htn, List.replicate_add, ← hop]
        simp
      · rw [flattenElems_cons, flattenElems_cons, flattenElems_cons, flattenElems_nil]
        simp
    | cons y ys =>
      show flattenElems (x :: pushElemList (y :: ys) e) = _
      rw [flattenElems_cons, ih (fun s hs => hl s (by simp [hs]))]
      simp only [flattenElems_cons]
      simp [List.append_assoc]

theorem deltaIte (a b : Nat) :
    (if a = b then CigarOp.Match else CigarOp.Sub).delta = CigarOp.delta CigarOp.Match := by
  split <;> rfl

theorem resolveMatchLoop_spec (t p : List Nat) :
    ∀ (n : Nat) (acc : List CigarElem) (pos : Pos),
      boundsLoop t p pos n = true →
      (∀ s ∈ acc, 0 ≤ s.cnt) →
      ∃ acc', resolveMatchLoop t p acc pos n
            = some (acc', pos + CigarOp.delta CigarOp.Match * (n : Int))
        ∧ (∀ s ∈ acc', 0 ≤ s.cnt)
        ∧ sumDeltaElems acc' = sumDeltaElems acc + CigarOp.delta CigarOp.Match * (n : Int)
        ∧ ∃ newOps, flattenElems acc' = flattenElems acc ++ newOps
            ∧ newOps.length = n
            ∧ ∀ o ∈ newOps, o = CigarOp.Match ∨ o = CigarOp.Sub := by
  intro n
  induction n with
  | zero =>
    intro acc pos _ hacc
    refine ⟨acc, ?_, hacc, ?_, [], by simp, rfl, by simp⟩
    · rw [show ((0 : Nat) : Int) = (0 : Int) from rfl, Pos.scale_zero, Pos.add_zero_right]
      rfl
    · rw [show ((0 : Nat) : Int) = (0 : Int) from rfl, Pos.scale_zero, Pos.add_zero_right]
  | succ n ih =>
    intro acc pos hb hacc
    simp only [boundsLoop, Bool.and_eq_true] at hb
    obtain ⟨⟨hbt, hbp⟩, hrest⟩ := hb
    obtain ⟨a, ha⟩ := Option.isSome_iff_exists.mp hbt
    obtain ⟨b, hbb⟩ := Option.isSome_iff_exists.mp hbp
    have hacc2 : ∀ s ∈ pushOpList acc (if a = b then CigarOp.Match else CigarOp.Sub), 0 ≤ s.cnt := by
      rw [pushOpList_eq]
      exact counts_pushElemList acc _ hacc (by norm_num)
    obtain ⟨acc', heq, hcnt, hsum, newOps, hfl, hlen, hmem⟩ :=
      ih (pushOpList acc (if a = b then CigarOp.Match else CigarOp.Sub))
        (pos + CigarOp.delta CigarOp.Match) hrest hacc2
    refine ⟨acc', ?_, hcnt, ?_, (if a = b then CigarOp.Match else CigarOp.Sub) :: newOps, ?_, ?_, ?_⟩
    · show resolveMatchLoop t p acc pos (n + 1) = _
      simp only [resolveMatchLoop, ha, hbb]
      rw [heq, Pos.step_scale]
      norm_cast
    · rw [hsum, pushOpList_eq, sumDeltaElems_pushElemList]
      dsimp only
      rw [deltaIte, Pos.add_assoc, Pos.scale_one_add]
      norm_cast
    · rw [hfl, pushOpList_eq,
        flatten_pushElemList acc _ hacc (by show (0 : Int) ≤ 1; norm_num)]
      simp [List.append_assoc]
    · simp [hlen]
    · intro o ho
      rcases List.mem_cons.mp ho with h | h
      · subst h
        split <;> simp
      · exact hmem o h

theorem forall₂_replicate_match (ops : List CigarOp)
    (h : ∀ o ∈ ops, o = CigarOp.Match ∨ o = CigarOp.Sub) :
    List.Forall₂ reclass (List.replicate ops.length CigarOp.Match) ops := by
  induction ops with
  | nil => exact List.Forall₂.nil
  | cons o os ih =>
    simp only [List.length_cons, List.replicate_succ]
    exact List.Forall₂.cons
      (by unfold reclass; simpa using h o (by simp))
      (ih fun o' ho' => h o' (by simp [ho']))

theorem resolveGo_spec (t p : List Nat) :
    ∀ (elems : List CigarElem) (pos : Pos) (acc : List CigarElem),
      matchBasesInBounds t p pos elems = true →
      (∀ e ∈ elems, 0 ≤ e.cnt) →
      (∀ s ∈ acc, 0 ≤ s.cnt) →
      ∃ res, resolveGo t p acc pos elems = some res
        ∧ (∀ s ∈ res, 0 ≤ s.cnt)
        ∧ sumDeltaElems res = sumDeltaElems acc + sumDeltaElems elems
        ∧ ∃ newOps, flattenElems res = flattenElems acc ++ newOps
            ∧ List.Forall₂ reclass (flattenElems elems) newOps := by
  intro elems
  induction elems with
  | nil =>
    intro pos acc _ _ hacc
    refine ⟨acc, rfl, hacc, ?_, [], by simp, ?_⟩
    · rw [sumDeltaElems_nil, Pos.add_zero_right]
    · rw [flattenElems_nil]
      exact List.Forall₂.nil
  | cons e rest ih =>
    intro pos acc hb hcnt hacc
    have hce : 0 ≤ e.cnt := hcnt e (by simp)
    have hcrest : ∀ x ∈ rest, 0 ≤ x.cnt := fun x hx => hcnt x (by simp [hx])
    obtain ⟨op, cnt⟩ := e
    cases op with
    | Match =>
      simp only [matchBasesInBounds, Bool.and_eq_true] at hb
      obtain ⟨hb1, hb2⟩ := hb
      obtain ⟨acc', heq, hacc', hsum', newOps1, hfl1, hlen1, hmem1⟩ :=
        resolveMatchLoop_spec t p cnt.toNat acc pos hb1 hacc
      obtain ⟨res, hres, hrescnt, hressum, newOps2, hresfl, hresf2⟩ :=
        ih (pos + CigarOp.delta CigarOp.Match * (cnt.toNat : Int)) acc' hb2 hcrest hacc'
      refine ⟨res, ?_, hrescnt, ?_, newOps1 ++ newOps2, ?_, ?_⟩
      · simp only [resolveGo]
        rw [heq]
        exact hres
      · rw [hressum, hsum', sumDeltaElems_cons]
        simp only [CigarOp.delta] at *
        have hcast : ((cnt.toNat : Nat) : Int) = cnt := by omega
        rw [hcast, Pos.add_assoc]
      · rw [hresfl, hfl1, List.append_assoc]
      · rw [flattenElems_cons]
        apply List.rel_append
        · simp only
          have hrepl : List.replicate cnt.toNat CigarOp.Match
              = List.replicate newOps1.length CigarOp.Match := by
            rw [hlen1]
          rw [hrepl]
          exact forall₂_replicate_match newOps1 hmem1
        · exact hresf2
    | Sub =>
      simp only [matchBasesInBounds] at hb
      obtain ⟨res, hres, hrescnt, hressum, newOps2, hresfl, hresf2⟩ :=
        ih (pos + CigarOp.delta CigarOp.Sub * cnt) (pushElemList acc ⟨CigarOp.Sub, cnt⟩) hb hcrest
          (counts_pushElemList acc _ hacc hce)
      refine ⟨res, hres, hrescnt, ?_, List.replicate cnt.toNat CigarOp.Sub ++ newOps2, ?_, ?_⟩
      · rw [hressum, sumDeltaElems_pushElemList, sumDeltaElems_cons]
        simp only
        rw [Pos.add_assoc]
      · rw [hresfl, flatten_pushElemList acc _ hacc hce, List.append_assoc]
      · rw [flattenElems_cons]
        apply List.rel_append
        · exact List.forall₂_same.mpr (fun x hx => by
            have := List.eq_of_mem_replicate hx
            subst this
            unfold reclass
            simp)
        · exact hresf2
    | Del =>
      simp only [matchBasesInBounds] at hb
      obtain ⟨res, hres, hrescnt, hressum, newOps2, hresfl, hresf2⟩ :=
        ih (pos + CigarOp.delta CigarOp.Del * cnt) (pushElemList acc ⟨CigarOp.Del, cnt⟩) hb hcrest
          (counts_pushElemList acc _ hacc hce)
      refine ⟨res, hres, hrescnt, ?_, List.replicate cnt.toNat CigarOp.Del ++ newOps2, ?_, ?_⟩
      · rw [hressum, sumDeltaElems_pushElemList, sumDeltaElems_cons]
        simp only
        rw [Pos.add_assoc]
      · rw [hresfl, flatten_pushElemList acc _ hacc hce, List.append_assoc]
      · rw [flattenElems_cons]
        apply List.rel_append
        · exact List.forall₂_same.mpr (fun x hx => by
            have := List.eq_of_mem_replicate hx
            subst this
            unfold reclass
            simp)
        · exact hresf2
    | Ins =>
      simp only [matchBasesInBounds] at hb
      obtain ⟨res, hres, hrescnt, hressum, newOps2, hresfl, hresf2⟩ :=
        ih (pos + CigarOp.delta CigarOp.Ins * cnt) (pushElemList acc ⟨CigarOp.Ins, cnt⟩) hb hcrest
          (counts_pushElemList acc _ hacc hce)
      refine ⟨res, hres, hrescnt, ?_, List.replicate cnt.toNat CigarOp.Ins ++ newOps2, ?_, ?_⟩
      · rw [hressum, sumDeltaElems_pushElemList, sumDeltaElems_cons]
        simp only
        rw [Pos.add_assoc]
      · rw [hresfl, flatten_pushElemList acc _ hacc hce, List.append_assoc]
      · rw [flattenElems_cons]
        apply List.rel_append
        · exact List.forall₂_same.mpr (fun x hx => by
            have := List.eq_of_mem_replicate hx
            subst this
            unfold reclass
            simp)
        · exact hresf2

theorem forall₂_reclass_count {l l' : List CigarOp} (h : List.Forall₂ reclass l l') :
    l'.count CigarOp.Ins = l.count CigarOp.Ins ∧ l'.count CigarOp.Del = l.count CigarOp.Del := by
  induction h with
  | nil => simp
  | @cons a b l₁ l₂ hr _ ih =>
    unfold reclass at hr
    by_cases ha : a = CigarOp.Match
    · rw [if_pos ha] at hr
      rcases hr with hb | hb <;> subst ha <;> subst hb <;>
        simp [List.count_cons, ih.1, ih.2]
    · rw [if_neg ha] at hr
      subst hr
      simp [List.count_cons, ih.1, ih.2]

/-- C10 (amended): for every element stream with nonnegative counts whose
nominal Match-run bases all index within both sequences, `resolve_matches`
succeeds and returns a Cigar with the same summed coordinate delta, the same
Ins and Del base counts, and a base stream related column-by-column to the
input: only bases inside nominal Match runs are reclassified, each to Match
or Sub. -/
theorem c10_resolve_matches_shape (elems : List CigarElem) (text pattern : List Nat)
    (hb : matchBasesInBounds text pattern ⟨0, 0⟩ elems = true)
    (hc : ∀ e ∈ elems, 0 ≤ e.cnt) :
    ∃ c', Cigar.resolve_matches elems text pattern = some c'
      ∧ sumDeltaElems c'.ops = sumDeltaElems elems
      ∧ List.Forall₂ reclass (flattenElems elems) (flattenElems c'.ops)
      ∧ (flattenElems c'.ops).count CigarOp.Ins = (flattenElems elems).count CigarOp.Ins
      ∧ (flattenElems c'.ops).count CigarOp.Del = (flattenElems elems).count CigarOp.Del := by
  obtain ⟨res, hres, -, hsum, newOps, hfl, hf2⟩ :=
    resolveGo_spec text pattern elems ⟨0, 0⟩ [] hb hc (by simp)
  rw [flattenElems_nil, List.nil_append] at hfl
  subst hfl
  refine ⟨⟨res⟩, ?_, ?_, hf2, (forall₂_reclass_count hf2).1, (forall₂_reclass_count hf2).2⟩
  · unfold Cigar.resolve_matches
    rw [hres]
    rfl
  · rw [hsum, sumDeltaElems_nil, Pos.zero_add_left]

/-- C10 counterexample: the claim as stated fails for a (degenerate)
negative-count Match run: its in-bounds hypothesis is vacuous, yet the
output's summed delta `(0,0)` differs from the input's `(-1,-1)`. -/
theorem c10_resolve_matches_counterexample :
    matchBasesInBounds [] [] ⟨0, 0⟩ [⟨CigarOp.Match, -1⟩] = true
    ∧ Cigar.resolve_matches [⟨CigarOp.Match, -1⟩] [] [] = some ⟨[]⟩
    ∧ sumDeltaElems ([] : List CigarElem) ≠ sumDeltaElems [⟨CigarOp.Match, -1⟩] := by
  refine ⟨rfl, rfl, by decide⟩

/-- C10 witness: the shape-preservation theorem applied to the nominal Match
run `[(Match,2)]` over `"ab"` and `"ac"`, which resolves to
`[(Match,1),(Sub,1)]`. -/
theorem c10_resolve_matches_shape_witness :
    Cigar.resolve_matches [⟨CigarOp.Match, 2⟩] [97, 98] [97, 99]
        = some ⟨[⟨CigarOp.Match, 1⟩, ⟨CigarOp.Sub, 1⟩]⟩
    ∧ sumDeltaElems [⟨CigarOp.Match, (1 : Int)⟩, ⟨CigarOp.Sub, 1⟩]
        = sumDeltaElems [⟨CigarOp.Match, 2⟩]
    ∧ List.Forall₂ reclass (flattenElems [⟨CigarOp.Match, 2⟩])
        (flattenElems [⟨CigarOp.Match, (1 : Int)⟩, ⟨CigarOp.Sub, 1⟩]) := by
  obtain ⟨c', h1, h2, h3, -, -⟩ :=
    c10_resolve_matches_shape [⟨CigarOp.Match, 2⟩] [97, 98] [97, 99] (by decide) (by decide)
  have h0 : Cigar.resolve_matches [⟨CigarOp.Match, 2⟩] [97, 98] [97, 99]
      = some ⟨[⟨CigarOp.Match, 1⟩, ⟨CigarOp.Sub, 1⟩]⟩ := rfl
  rw [h1] at h0
  rw [Option.some.inj h0] at h1 h2 h3
  exact ⟨h1, h2, h3⟩

theorem Pos.scale_one (d : Pos) : d * (1 : Int) = d := by
  cases d
  simp [Pos.scale_def]

theorem Pos.step_scale_cast (pos d : Pos) (k : Nat) :
    pos + d + d * (k : Int) = pos + d * (((k + 1 : Nat)) : Int) := by
  rw [Pos.step_scale]
  norm_cast

theorem range'_shift (n : Nat) : ∀ s : Nat, List.range' (s + 1) n = (List.range' s n).map (· + 1) := by
  induction n with
  | zero => intro s; rfl
  | succ k ih =>
    intro s
    rw [List.range'_succ, List.range'_succ, List.map_cons, ih]

theorem Pos.scale_congr (p d : Pos) {a b : Int} (h : a = b) : p + d * a = p + d * b := by
  rw [h]

theorem matchCostEntries_spec (cost : Int) :
    ∀ (n : Nat) (pos : Pos),
      matchCostEntries cost pos n
        = (((List.range' 1 n).map fun (k : Nat) =>
              (pos + CigarOp.delta CigarOp.Match * (k : Int), cost)),
           pos + CigarOp.delta CigarOp.Match * (n : Int)) := by
  intro n
  induction n with
  | zero =>
    intro pos
    simp [matchCostEntries, Pos.scale_zero, Pos.add_zero_right]
  | succ n ih =>
    intro pos
    simp only [matchCostEntries]
    rw [ih]
    rw [List.range'_succ, List.map_cons]
    refine congrArg₂ Prod.mk (congrArg₂ List.cons ?_ ?_) ?_
    · rw [show ((1 : Nat) : Int) = (1 : Int) from rfl, Pos.scale_one]
    · dsimp only
      rw [range'_shift n 1, List.map_map]
      refine List.map_congr_left ?_
      intro a _
      simp only [Function.comp_apply]
      rw [Pos.step_scale_cast]
    · dsimp only
      rw [Pos.step_scale_cast]

theorem subCostEntries_spec (cm : CostModel) :
    ∀ (n : Nat) (pos : Pos) (cost : Int),
      subCostEntries cm pos cost n
        = (((List.range' 1 n).map fun (k : Nat) =>
              (pos + CigarOp.delta CigarOp.Sub * (k : Int), cost + (k : Int) * cm.sub)),
           pos + CigarOp.delta CigarOp.Sub * (n : Int),
           cost + (n : Int) * cm.sub) := by
  intro n
  induction n with
  | zero =>
    intro pos cost
    simp [subCostEntries, Pos.scale_zero, Pos.add_zero_right]
  | succ n ih =>
    intro pos cost
    simp only [subCostEntries]
    rw [ih]
    rw [List.range'_succ, List.map_cons]
    refine congrArg₂ Prod.mk (congrArg₂ List.cons ?_ ?_) (congrArg₂ Prod.mk ?_ ?_)
    · refine congrArg₂ Prod.mk ?_ ?_
      · rw [show ((1 : Nat) : Int) = (1 : Int) from rfl, Pos.scale_one]
      · push_cast
        ring
    · dsimp only
      rw [range'_shift n 1, List.map_map]
      refine List.map_congr_left ?_
      intro a _
      simp only [Function.comp_apply]
      refine congrArg₂ Prod.mk ?_ ?_
      · rw [Pos.step_scale_cast]
      · push_cast
        ring
    · dsimp only
      rw [Pos.step_scale_cast]
    · dsimp only
      push_cast
      ring

theorem gapCostEntries_spec (cm : CostModel) (d : Pos) (cost : Int) :
    ∀ (n : Nat) (pos : Pos) (len : Int),
      gapCostEntries cm d cost pos len n
        = (((List.range' 0 n).map fun (j : Nat) =>
              (pos + d * ((j : Int) + 1), cost + cm.open_ + (len + (j : Int)) * cm.extend)),
           pos + d * (n : Int)) := by
  intro n
  induction n with
  | zero =>
    intro pos len
    simp [gapCostEntries, Pos.scale_zero, Pos.add_zero_right]
  | succ n ih =>
    intro pos len
    simp only [gapCostEntries]
    rw [ih]
    rw [List.range'_succ, List.map_cons]
    refine congrArg₂ Prod.mk (congrArg₂ List.cons ?_ ?_) ?_
    · refine congrArg₂ Prod.mk ?_ ?_
      · rw [show ((0 : Nat) : Int) = (0 : Int) from rfl, zero_add, Pos.scale_one]
      · rw [show ((0 : Nat) : Int) = (0 : Int) from rfl, add_zero]
    · dsimp only
      rw [range'_shift n 0, List.map_map]
      refine List.map_congr_left ?_
      intro a _
      simp only [Function.comp_apply]
      refine congrArg₂ Prod.mk ?_ ?_
      · rw [Pos.step_scale]
        exact Pos.scale_congr _ _ (by push_cast; ring)
      · push_cast
        ring
    · dsimp only
      rw [Pos.step_scale_cast]

theorem range'_one_eq (n : Nat) : List.range' 1 n = (List.range' 0 n).map (· + 1) := by
  simpa using range'_shift n 0

theorem gapCostEntries_one (cm : CostModel) (d : Pos) (cost : Int) (n : Nat) (pos : Pos) :
    gapCostEntries cm d cost pos 1 n
      = (((List.range' 1 n).map fun (k : Nat) =>
            (pos + d * (k : Int), cost + cm.open_ + (k : Int) * cm.extend)),
         pos + d * (n : Int)) := by
  rw [gapCostEntries_spec]
  refine congrArg₂ Prod.mk ?_ rfl
  rw [range'_one_eq n, List.map_map]
  refine (List.map_congr_left ?_).symm
  intro a _
  simp only [Function.comp_apply]
  refine congrArg₂ Prod.mk ?_ ?_
  · exact Pos.scale_congr _ _ (by push_cast; ring)
  · push_cast
    ring


theorem pathCostsGo_eq_spec (cm : CostModel) :
    ∀ (l : List CigarElem) (pos : Pos) (cost : Int),
      (∀ e ∈ l, 1 ≤ e.cnt) →
        pathCostsGo cm pos cost l = specTraceGo cm pos cost l := by
  intro l
  induction l with
  | nil => intro pos cost _; rfl
  | cons e rest ih =>
    intro pos cost h
    have hce : (1 : Int) ≤ e.cnt := h e (by simp)
    have hrest : ∀ x ∈ rest, 1 ≤ x.cnt := fun x hx => h x (by simp [hx])
    have hcast : ((e.cnt.toNat : Nat) : Int) = e.cnt := by omega
    obtain ⟨op, cnt⟩ := e
    cases op with
    | Match =>
      simp only [pathCostsGo, specTraceGo, specRunEntries, specRunTotal]
      rw [matchCostEntries_spec]
      dsimp only
      rw [hcast, ih _ _ hrest, add_zero]
    | Sub =>
      simp only [pathCostsGo, specTraceGo, specRunEntries, specRunTotal]
      rw [subCostEntries_spec]
      dsimp only
      rw [hcast, ih _ _ hrest]
    | Ins =>
      simp only [pathCostsGo, specTraceGo, specRunEntries, specRunTotal, CostModel.ins]
      rw [gapCostEntries_one]
      dsimp only
      rw [hcast, ih _ _ hrest]
    | Del =>
      simp only [pathCostsGo, specTraceGo, specRunEntries, specRunTotal, CostModel.del]
      rw [gapCostEntries_one]
      dsimp only
      rw [hcast, ih _ _ hrest]

/-- C5: the cost trace of `to_path_with_costs` is exactly the claim's closed
form: Match entries repeat the running cost, the k-th Sub base carries the
running cost plus `k·sub`, the k-th base of a gap run carries the cost at the
start of the run plus `open + k·extend`, and the running total grows by the
run total (`open + L·extend` for gaps, `L·sub` for Sub runs) only once the
whole run has been traversed. -/
theorem c5_to_path_with_costs_trace (cm : CostModel) (c : Cigar)
    (h : ∀ e ∈ c.ops, 1 ≤ e.cnt) :
    c.to_path_with_costs cm = specTracePath cm c := by
  unfold Cigar.to_path_with_costs specTracePath
  rw [pathCostsGo_eq_spec cm c.ops ⟨0, 0⟩ 0 h]

/-- C5 witness: the trace theorem applied to the Cigar `[(Ins,2),(Sub,1)]`
under the affine model `sub=1, open=2, extend=3`. -/
theorem c5_to_path_with_costs_trace_witness :
    Cigar.to_path_with_costs ⟨[⟨CigarOp.Ins, 2⟩, ⟨CigarOp.Sub, 1⟩]⟩ ⟨1, 2, 3⟩
      = specTracePath ⟨1, 2, 3⟩ ⟨[⟨CigarOp.Ins, 2⟩, ⟨CigarOp.Sub, 1⟩]⟩ :=
  c5_to_path_with_costs_trace ⟨1, 2, 3⟩ ⟨[⟨CigarOp.Ins, 2⟩, ⟨CigarOp.Sub, 1⟩]⟩ (by decide)

theorem digitVal_digitChar : ∀ n < 10, digitVal (digitChar n) = n := by decide

theorem isDigit_digitChar : ∀ n < 10, isDigitChar (digitChar n) = true := by decide

theorem opchar_not_digit : ∀ op : CigarOp, isDigitChar op.to_char = false := by
  intro op
  cases op <;> rfl

theorem ofByte_to_char : ∀ op : CigarOp, CigarOp.ofByte op.to_char = some op := by
  intro op
  cases op <;> rfl

theorem natDigits_ne_nil (n : Nat) : natDigits n ≠ [] := by
  rw [natDigits]
  split <;> simp

theorem natDigits_digits (n : Nat) : ∀ c ∈ natDigits n, isDigitChar c = true := by
  induction n using Nat.strong_induction_on with
  | _ n ih =>
    rw [natDigits]
    split
    · rename_i h
      intro c hc
      simp at hc
      exact hc ▸ isDigit_digitChar n h
    · rename_i h
      intro c hc
      rcases List.mem_append.mp hc with h1 | h1
      · exact ih (n / 10) (Nat.div_lt_self (by omega) (by omega)) c h1
      · simp at h1
        exact h1 ▸ isDigit_digitChar (n % 10) (Nat.mod_lt n (by omega))

theorem parseNatAcc_append (xs ys : List Char) :
    ∀ acc, parseNatAcc acc (xs ++ ys) = parseNatAcc (parseNatAcc acc xs) ys := by
  induction xs with
  | nil => intro acc; rfl
  | cons x xs ih =>
    intro acc
    show parseNatAcc (10 * acc + digitVal x) (xs ++ ys) = _
    rw [ih]
    rfl

theorem parseNatAcc_one (acc : Nat) (c : Char) : parseNatAcc acc [c] = 10 * acc + digitVal c :=
  rfl

theorem parseNatAcc_natDigits (n : Nat) : parseNatAcc 0 (natDigits n) = n := by
  induction n using Nat.strong_induction_on with
  | _ n ih =>
    rw [natDigits]
    split
    · rename_i h
      rw [parseNatAcc_one, digitVal_digitChar n h]
      omega
    · rename_i h
      rw [parseNatAcc_append]
      rw [ih (n / 10) (Nat.div_lt_self (by omega) (by omega))]
      rw [parseNatAcc_one, digitVal_digitChar (n % 10) (Nat.mod_lt n (by omega))]
      omega

theorem parseCount_natDigits (n : Nat) : parseCount (natDigits n) = some ((n : Nat) : Int) := by
  unfold parseCount
  rw [if_neg (natDigits_ne_nil n)]
  rw [if_pos (List.all_eq_true.mpr (fun c hc => natDigits_digits n c hc))]
  rw [parseNatAcc_natDigits n]

theorem splitInc_block (c : Char) (rest : List Char) (hc : isDigitChar c = false) :
    ∀ ds : List Char, (∀ d ∈ ds, isDigitChar d = true) →
      splitInclusiveNonDigit (ds ++ c :: rest) = (ds ++ [c]) :: splitInclusiveNonDigit rest := by
  intro ds
  induction ds with
  | nil =>
    intro _
    simp [splitInclusiveNonDigit, hc]
  | cons d ds ih =>
    intro hds
    have hd := hds d (by simp)
    show splitInclusiveNonDigit (d :: (ds ++ c :: rest)) = _
    simp only [splitInclusiveNonDigit, hd]
    rw [ih (fun x hx => hds x (by simp [hx]))]
    simp

theorem chunkToElem_block (e : CigarElem) (he : 1 ≤ e.cnt) :
    chunkToElem (natDigits e.cnt.toNat ++ [e.op.to_char]) = some e := by
  unfold chunkToElem
  rw [List.getLast?_concat, List.dropLast_concat]
  have hcast : ((e.cnt.toNat : Nat) : Int) = e.cnt := by omega
  simp [natDigits_ne_nil e.cnt.toNat, parseCount_natDigits, ofByte_to_char e.op, hcast]

theorem pushElemList_append (l : List CigarElem) (e : CigarElem)
    (h : ∀ s, l.getLast? = some s → s.op ≠ e.op) :
    pushElemList l e = l ++ [e] := by
  induction l with
  | nil => rfl
  | cons x xs ih =>
    cases xs with
    | nil =>
      have hx : x.op ≠ e.op := h x rfl
      simp [pushElemList, hx]
    | cons y ys =>
      show x :: pushElemList (y :: ys) e = _
      rw [ih (fun s hs => h s (by rw [List.getLast?_cons_cons]; exact hs))]
      rfl

theorem fromStringGo_blocks :
    ∀ (l acc : List CigarElem),
      (∀ e ∈ l, 1 ≤ e.cnt) →
      List.Chain' (fun a b => a.op ≠ b.op) (acc ++ l) →
      fromStringGo acc (l.map fun e => natDigits e.cnt.toNat ++ [e.op.to_char])
        = some (acc ++ l) := by
  intro l
  induction l with
  | nil =>
    intro acc _ _
    simp [fromStringGo]
  | cons e l ih =>
    intro acc hcnt hchain
    simp only [List.map_cons, fromStringGo]
    rw [chunkToElem_block e (hcnt e (by simp))]
    dsimp only
    have hbound := (List.chain'_append.mp hchain).2.2
    have hpush : pushElemList acc e = acc ++ [e] :=
      pushElemList_append acc e (fun s hs => hbound s (by simp [hs]) e (by simp))
    rw [hpush]
    rw [List.append_cons] at hchain
    rw [ih (acc ++ [e]) (fun x hx => hcnt x (by simp [hx])) hchain]
    simp

/-- C3: for every run-coalesced Cigar whose counts are all at least 1,
`from_string` applied to `to_string` recovers the Cigar exactly. -/
theorem c3_round_trip (c : Cigar) (hco : Coalesced c) (hcnt : ∀ e ∈ c.ops, 1 ≤ e.cnt) :
    Cigar.from_string (Cigar.to_string c) = some c := by
  obtain ⟨l⟩ := c
  have hsplit : splitInclusiveNonDigit (Cigar.to_string ⟨l⟩)
      = l.map fun e => natDigits e.cnt.toNat ++ [e.op.to_char] := by
    clear hco
    induction l with
    | nil => rfl
    | cons e l ihl =>
      have hce : (1 : Int) ≤ e.cnt := hcnt e (by simp)
      show splitInclusiveNonDigit (intRepr e.cnt ++ (e.op.to_char :: Cigar.to_string ⟨l⟩)) = _
      rw [show intRepr e.cnt = natDigits e.cnt.toNat from by
        unfold intRepr
        rw [if_neg (by omega)]]
      rw [splitInc_block e.op.to_char _ (opchar_not_digit e.op) _ (natDigits_digits e.cnt.toNat)]
      rw [ihl (fun x hx => hcnt x (by simp [hx]))]
      rfl
  unfold Cigar.from_string
  rw [hsplit]
  rw [fromStringGo_blocks l [] hcnt (by simpa [Coalesced] using hco)]
  rfl

/-- C3 witness: the round-trip theorem applied to `[(Match,24),(Ins,3)]`,
whose rendering is `"24=3I"`. -/
theorem c3_round_trip_witness :
    Cigar.from_string (Cigar.to_string ⟨[⟨CigarOp.Match, 24⟩, ⟨CigarOp.Ins, 3⟩]⟩)
      = some ⟨[⟨CigarOp.Match, 24⟩, ⟨CigarOp.Ins, 3⟩]⟩ :=
  c3_round_trip ⟨[⟨CigarOp.Match, 24⟩, ⟨CigarOp.Ins, 3⟩]⟩
    (by unfold Coalesced; exact List.chain'_pair.mpr (by decide)) (by decide)

end PaTypes
